import Mathlib

/-!
# Verification of the job-tracking core of `automated-job-agent`

This file gives a shallow embedding, in Lean 4, of the deduplication /
historical-tracking core of the `automated-job-agent` repository
(`job_tracker.py` and the cross-source deduplication loop of
`job_search_v2.py`), and proves the specified properties about it.

Modelling conventions:

* Python `str.lower()` / `str.strip()` are modelled by `py_lower` / `py_strip`
  over the character list of a string (ASCII-faithful).
* `hashlib.md5(...).hexdigest()` is modelled by a full MD5 implementation
  over `Nat` bytes (`md5Hex`), with machine words represented as `Nat`
  reduced modulo `2 ^ 32`.
* A Python `datetime` value is modelled by `PyDateTime`: an ordered pair of
  a day number (`date : Int`, the value of `.date()`) and a time-of-day
  (`tod : Nat`); `datetime` comparison is lexicographic, and
  `dt - timedelta(days = k)` subtracts `k` from the day number.
  The in-memory history holds these values directly; the ISO-8601 strings
  that `job_history.json` holds are produced/consumed at the persistence
  boundary by `isoFormat` / `isoParse` (a faithful pair for all values,
  mirroring `datetime.isoformat` / `datetime.fromisoformat`).
* A Python `dict` is modelled as an association list in insertion order
  (`dictLookup` / `dictInsert` / `dictErase`), a `set` of keys as a list
  with membership.
* `datetime.now()` during one call is modelled by a single `now` parameter.
-/

set_option maxRecDepth 40000

namespace JobAgent

/-! ## Python string normalization: `s.lower()` and `s.strip()` -/

/-- `s.lower()`: lower-case every character. -/
def py_lower (s : String) : String := ⟨s.data.map Char.toLower⟩

/-- `s.strip()`: drop whitespace from both ends. -/
def py_strip (s : String) : String :=
  ⟨(((s.data.dropWhile Char.isWhitespace).reverse).dropWhile Char.isWhitespace).reverse⟩

/-! ## MD5 (`hashlib.md5(...).hexdigest()`), over `Nat` bytes -/

/-- Truncate to a 32-bit word. -/
def u32 (n : Nat) : Nat := n % 4294967296

/-- 32-bit left rotation. -/
def rotl32 (x s : Nat) : Nat := u32 ((x <<< s) ||| (x >>> (32 - s)))

/-- 32-bit complement (for inputs below `2 ^ 32`). -/
def not32 (x : Nat) : Nat := x ^^^ 4294967295

/-- The per-round left-rotation amounts (RFC 1321). -/
def md5_s : List Nat :=
  [7, 12, 17, 22, 7, 12, 17, 22, 7, 12, 17, 22, 7, 12, 17, 22,
   5, 9, 14, 20, 5, 9, 14, 20, 5, 9, 14, 20, 5, 9, 14, 20,
   4, 11, 16, 23, 4, 11, 16, 23, 4, 11, 16, 23, 4, 11, 16, 23,
   6, 10, 15, 21, 6, 10, 15, 21, 6, 10, 15, 21, 6, 10, 15, 21]

/-- The per-round additive constants (RFC 1321). -/
def md5_k : List Nat :=
  [0xd76aa478, 0xe8c7b756, 0x242070db, 0xc1bdceee,
   0xf57c0faf, 0x4787c62a, 0xa8304613, 0xfd469501,
   0x698098d8, 0x8b44f7af, 0xffff5bb1, 0x895cd7be,
   0x6b901122, 0xfd987193, 0xa679438e, 0x49b40821,
   0xf61e2562, 0xc040b340, 0x265e5a51, 0xe9b6c7aa,
   0xd62f105d, 0x02441453, 0xd8a1e681, 0xe7d3fbc8,
   0x21e1cde6, 0xc33707d6, 0xf4d50d87, 0x455a14ed,
   0xa9e3e905, 0xfcefa3f8, 0x676f02d9, 0x8d2a4c8a,
   0xfffa3942, 0x8771f681, 0x6d9d6122, 0xfde5380c,
   0xa4beea44, 0x4bdecfa9, 0xf6bb4b60, 0xbebfbc70,
   0x289b7ec6, 0xeaa127fa, 0xd4ef3085, 0x04881d05,
   0xd9d4d039, 0xe6db99e5, 0x1fa27cf8, 0xc4ac5665,
   0xf4292244, 0x432aff97, 0xab9423a7, 0xfc93a039,
   0x655b59c3, 0x8f0ccc92, 0xffeff47d, 0x85845dd1,
   0x6fa87e4f, 0xfe2ce6e0, 0xa3014314, 0x4e0811a1,
   0xf7537e82, 0xbd3af235, 0x2ad7d2bb, 0xeb86d391]

/-- One MD5 round on state `(a, b, c, d)` with message words `m`, round `i`. -/
def md5Round (m : List Nat) (st : Nat × Nat × Nat × Nat) (i : Nat) : Nat × Nat × Nat × Nat :=
  let (a, b, c, d) := st
  let (f, g) :=
    if i < 16 then ((b &&& c) ||| (not32 b &&& d), i)
    else if i < 32 then ((d &&& b) ||| (not32 d &&& c), (5 * i + 1) % 16)
    else if i < 48 then (b ^^^ c ^^^ d, (3 * i + 5) % 16)
    else (c ^^^ (b ||| not32 d), (7 * i) % 16)
  let f2 := u32 (f + a + (md5_k.getD i 0) + (m.getD g 0))
  (d, u32 (b + rotl32 f2 (md5_s.getD i 0)), b, c)

/-- Split a 64-byte chunk into 16 little-endian 32-bit words. -/
def bytesToWordsLE : List Nat → List Nat
  | b0 :: b1 :: b2 :: b3 :: rest =>
    (b0 + 256 * b1 + 65536 * b2 + 16777216 * b3) :: bytesToWordsLE rest
  | _ => []

/-- Process the padded message 64 bytes at a time (fuel bounds the number of
chunks; `md5Chunks` supplies enough). -/
def md5ChunksAux : Nat → Nat × Nat × Nat × Nat → List Nat → Nat × Nat × Nat × Nat
  | _, st, [] => st
  | 0, st, _ => st
  | fuel + 1, st, bytes =>
    let m := bytesToWordsLE (bytes.take 64)
    let (a0, b0, c0, d0) := st
    let (a, b, c, d) := (List.range 64).foldl (md5Round m) st
    md5ChunksAux fuel (u32 (a0 + a), u32 (b0 + b), u32 (c0 + c), u32 (d0 + d)) (bytes.drop 64)

def md5Chunks (st : Nat × Nat × Nat × Nat) (bytes : List Nat) : Nat × Nat × Nat × Nat :=
  md5ChunksAux bytes.length st bytes

/-- Little-endian bytes of a 64-bit length word. -/
def wordToBytesLE8 (n : Nat) : List Nat :=
  [n % 256, n / 256 % 256, n / 65536 % 256, n / 16777216 % 256,
   n / 4294967296 % 256, n / 1099511627776 % 256, n / 281474976710656 % 256,
   n / 72057594037927936 % 256]

/-- MD5 padding: a `0x80` byte, zeros to 56 mod 64, then the bit length. -/
def md5Pad (msg : List Nat) : List Nat :=
  msg ++ [128] ++ List.replicate ((119 - msg.length % 64) % 64) 0
      ++ wordToBytesLE8 ((msg.length * 8) % 18446744073709551616)

/-- Little-endian bytes of a 32-bit word. -/
def wordToBytesLE4 (n : Nat) : List Nat :=
  [n % 256, n / 256 % 256, n / 65536 % 256, n / 16777216 % 256]

/-- Lower-case hex digit for a value below 16. -/
def hexDigitChar (n : Nat) : Char :=
  if n < 10 then Char.ofNat (48 + n) else Char.ofNat (87 + n % 16)

/-- Two lower-case hex digits of a byte. -/
def byteToHex (n : Nat) : List Char := [hexDigitChar (n / 16 % 16), hexDigitChar (n % 16)]

/-- `hashlib.md5(bytes).hexdigest()`. -/
def md5Hex (msg : List Nat) : String :=
  let (a, b, c, d) := md5Chunks (0x67452301, 0xefcdab89, 0x98badcfe, 0x10325476) (md5Pad msg)
  ⟨(wordToBytesLE4 a ++ wordToBytesLE4 b ++ wordToBytesLE4 c ++ wordToBytesLE4 d).flatMap byteToHex⟩

/-- UTF-8 encoding of one character (Python `str.encode()`). -/
def utf8Bytes (c : Char) : List Nat :=
  let n := c.toNat
  if n < 128 then [n]
  else if n < 2048 then [192 + n / 64, 128 + n % 64]
  else if n < 65536 then [224 + n / 4096, 128 + n / 64 % 64, 128 + n % 64]
  else [240 + n / 262144, 128 + n / 4096 % 64, 128 + n / 64 % 64, 128 + n % 64]

/-- UTF-8 bytes of a string (Python `str.encode()`). -/
def strBytes (s : String) : List Nat := s.data.flatMap utf8Bytes

/-! ## The data model -/

/-- A Python `datetime` value: `.date()` as a day number, plus time of day.
`datetime` comparison is lexicographic in these components. -/
structure PyDateTime where
  date : Int
  tod : Nat
deriving DecidableEq, Repr

/-- `datetime` strict comparison `a < b` (lexicographic). -/
def dtLtb (a b : PyDateTime) : Bool :=
  a.date < b.date || (a.date == b.date && a.tod < b.tod)

/-- A normalized job record as produced by the searchers: the fields of the
job dicts flowing into `JobTracker`. `location` is optional because the
tracker reads it with `job.get('location', '')`; the other fields read by
the modelled code paths (`title`, `company`) are always present on records
reaching the tracker. -/
structure Job where
  title : String
  company : String
  location : Option String
  salary : String
  url : String
  source : String
  experience : String
  description : String
deriving DecidableEq, Repr

/-- The string hashed by `JobTracker.generate_job_hash`:
`f"{job['title'].lower().strip()}-{job['company'].lower().strip()}-{job.get('location', '').lower().strip()}"`. -/
def job_string (job : Job) : String :=
  py_strip (py_lower job.title) ++ "-" ++ py_strip (py_lower job.company) ++ "-"
    ++ py_strip (py_lower (job.location.getD ""))

/-- `JobTracker.generate_job_hash` (job_tracker.py:43-46). -/
def generate_job_hash (job : Job) : String := md5Hex (strBytes (job_string job))

/-! ## Python `dict` as an insertion-ordered association list -/

/-- `m[k]` lookup / `k in m`: first binding of `k`. -/
def dictLookup {κ α : Type} [DecidableEq κ] : List (κ × α) → κ → Option α
  | [], _ => none
  | (k, v) :: rest, key => if k = key then some v else dictLookup rest key

/-- `m[k] = v`: overwrite the binding in place if present, else append. -/
def dictInsert {κ α : Type} [DecidableEq κ] : List (κ × α) → κ → α → List (κ × α)
  | [], key, v => [(key, v)]
  | (k, w) :: rest, key, v =>
    if k = key then (key, v) :: rest else (k, w) :: dictInsert rest key v

/-- `del m[k]`: drop the first binding of `k`. -/
def dictErase {κ α : Type} [DecidableEq κ] : List (κ × α) → κ → List (κ × α)
  | [], _ => []
  | (k, w) :: rest, key => if k = key then rest else (k, w) :: dictErase rest key

/-- The in-memory `self.history` dictionary of `JobTracker`:
`seen_jobs` maps fingerprint hex strings to (the datetimes denoted by)
ISO timestamp strings, `daily_counts` maps day numbers to counts. -/
structure History where
  seen_jobs : List (String × PyDateTime)
  daily_counts : List (Int × Int)
  last_cleanup : PyDateTime
deriving DecidableEq, Repr

/-- The loop body state of `JobTracker.filter_new_jobs` (job_tracker.py:54-65):
processes the remaining jobs given the current `seen_jobs` dictionary,
returning the emitted records and the final dictionary. -/
def filterNewJobsGo (now : PyDateTime) (threshold_date : Int) :
    List (String × PyDateTime) → List Job → List Job × List (String × PyDateTime)
  | seen, [] => ([], seen)
  | seen, job :: rest =>
    let job_hash := generate_job_hash job
    let suppressed :=
      match dictLookup seen job_hash with
      | some first_seen => decide (threshold_date < first_seen.date)
      | none => false
    if suppressed then
      filterNewJobsGo now threshold_date seen rest
    else
      let res := filterNewJobsGo now threshold_date (dictInsert seen job_hash now) rest
      (job :: res.1, res.2)

/-- `JobTracker.filter_new_jobs` (job_tracker.py:48-67). -/
def filter_new_jobs (history : History) (jobs : List Job) (days_threshold : Int)
    (now : PyDateTime) : List Job × History :=
  let threshold_date := now.date - days_threshold
  let res := filterNewJobsGo now threshold_date history.seen_jobs jobs
  (res.1, { history with seen_jobs := res.2 })

/-- `JobTracker.cleanup_old_history` (job_tracker.py:85-108).  Besides the
mutated history, the model returns the two counts the source computes and
prints: `len(jobs_to_remove)` and `len(dates_to_remove)`. -/
def cleanup_old_history (history : History) (days_to_keep : Int) (now : PyDateTime) :
    History × Nat × Nat :=
  let cutoff_date : PyDateTime := ⟨now.date - days_to_keep, now.tod⟩
  let jobs_to_remove :=
    (history.seen_jobs.filter (fun p => dtLtb p.2 cutoff_date)).map Prod.fst
  let seen2 := jobs_to_remove.foldl dictErase history.seen_jobs
  let dates_to_remove :=
    (history.daily_counts.filter (fun p => dtLtb ⟨p.1, 0⟩ cutoff_date)).map Prod.fst
  let counts2 := dates_to_remove.foldl dictErase history.daily_counts
  ({ seen_jobs := seen2, daily_counts := counts2, last_cleanup := now },
   jobs_to_remove.length, dates_to_remove.length)

/-! ## Cross-source deduplication of `JobSearcherV2.search_operations_jobs` -/

/-- The dedup key `(job['title'].lower().strip(), job['company'].lower().strip())`
(job_search_v2.py:336). -/
def opsKey (job : Job) : String × String :=
  (py_strip (py_lower job.title), py_strip (py_lower job.company))

/-- The dedup loop of `search_operations_jobs` (job_search_v2.py:333-341),
with `seen` the set of keys already kept. -/
def opsDedupGo (seen : List (String × String)) : List Job → List Job
  | [] => []
  | job :: rest =>
    let key := opsKey job
    if key ∈ seen then opsDedupGo seen rest
    else job :: opsDedupGo (key :: seen) rest

/-- The `unique_jobs` list produced at the end of `search_operations_jobs`. -/
def search_operations_jobs_dedup (all_jobs : List Job) : List Job := opsDedupGo [] all_jobs

/-! ## Persistence: `save_history` / `load_history` over `job_history.json`

The file contents are modelled as a JSON value; the datetime / date values
of the store are rendered to strings (`isoFormat`, day numbers in decimal)
and parsed back (`isoParse`), mirroring `datetime.isoformat` /
`datetime.fromisoformat` at this abstraction. -/

/-- Decimal digits of `n`, most significant first (fuel-driven; `natDigits`
supplies enough fuel). -/
def natDigitsAux : Nat → Nat → List Char
  | 0, _ => []
  | fuel + 1, n =>
    if n < 10 then [Nat.digitChar n]
    else natDigitsAux fuel (n / 10) ++ [Nat.digitChar (n % 10)]

/-- Decimal rendering of a natural number. -/
def natDigits (n : Nat) : List Char := natDigitsAux (n + 1) n

/-- Decimal rendering of an integer (possibly with a leading minus sign). -/
def intDigits (i : Int) : List Char :=
  if i < 0 then '-' :: natDigits i.natAbs else natDigits i.natAbs

/-- One step of decimal accumulation. -/
def digitStep (acc : Nat) (c : Char) : Nat := acc * 10 + (c.toNat - 48)

/-- Parse a nonempty all-digit character list as a natural number. -/
def parseNatDigits (cs : List Char) : Option Nat :=
  if cs.isEmpty then none
  else if cs.all Char.isDigit then some (cs.foldl digitStep 0) else none

/-- Parse an optional minus sign followed by decimal digits. -/
def parseIntDigits (cs : List Char) : Option Int :=
  if cs.head? = some '-' then (parseNatDigits cs.tail).map (fun n => -(n : Int))
  else (parseNatDigits cs).map (fun n => (n : Int))

/-- `datetime.isoformat()` at this abstraction: date part, `'T'`, time part. -/
def isoFormat (t : PyDateTime) : String :=
  ⟨intDigits t.date ++ 'T' :: natDigits t.tod⟩

/-- Split a character list at the first `'T'`. -/
def splitAtT : List Char → Option (List Char × List Char)
  | [] => none
  | c :: rest =>
    if c = 'T' then some ([], rest)
    else match splitAtT rest with
      | some (a, b) => some (c :: a, b)
      | none => none

/-- `datetime.fromisoformat` at this abstraction (inverse of `isoFormat`). -/
def isoParse (s : String) : Option PyDateTime :=
  match splitAtT s.data with
  | none => none
  | some (d, t) =>
    match parseIntDigits d, parseNatDigits t with
    | some date, some tod => some ⟨date, tod⟩
    | _, _ => none

/-- The JSON values involved in `job_history.json`. -/
inductive Json where
  | str : String → Json
  | num : Int → Json
  | obj : List (String × Json) → Json

/-- `json.dump(self.history, f)`: the JSON document written by `save_history`. -/
def historyToJson (h : History) : Json :=
  .obj [("seen_jobs", .obj (h.seen_jobs.map (fun p => (p.1, Json.str (isoFormat p.2))))),
        ("daily_counts", .obj (h.daily_counts.map (fun p => (⟨intDigits p.1⟩, Json.num p.2)))),
        ("last_cleanup", .str (isoFormat h.last_cleanup))]

/-- Decode the `seen_jobs` object back to fingerprint/datetime pairs. -/
def decodeSeen : List (String × Json) → Option (List (String × PyDateTime))
  | [] => some []
  | (k, Json.str v) :: rest =>
    match isoParse v, decodeSeen rest with
    | some t, some r => some ((k, t) :: r)
    | _, _ => none
  | _ => none

/-- Decode the `daily_counts` object back to date/count pairs. -/
def decodeCounts : List (String × Json) → Option (List (Int × Int))
  | [] => some []
  | (k, Json.num n) :: rest =>
    match parseIntDigits k.data, decodeCounts rest with
    | some d, some r => some ((d, n) :: r)
    | _, _ => none
  | _ => none

/-- Read a history-shaped JSON document back into a `History`.  `none` means
the document does not have the history schema (Python would keep the raw
parsed dictionary, which is outside this embedding's `History` type). -/
def jsonToHistory : Json → Option History
  | .obj [("seen_jobs", .obj sj), ("daily_counts", .obj dc), ("last_cleanup", .str lc)] =>
    match decodeSeen sj, decodeCounts dc, isoParse lc with
    | some s, some d, some t => some ⟨s, d, t⟩
    | _, _, _ => none
  | _ => none

/-- The observable states of the history file as `load_history` finds it:
missing, unreadable (`open` raises), unparsable (`json.load` raises), or
holding a JSON document. -/
inductive HistoryFile where
  | absent
  | unreadable
  | corrupt
  | content (j : Json)

/-- The fresh empty history built by `load_history` when no usable file
exists (job_tracker.py:22-26 and 29-33). -/
def fresh_history (now : PyDateTime) : History :=
  { seen_jobs := [], daily_counts := [], last_cleanup := now }

/-- `JobTracker.save_history` (job_tracker.py:35-41): writes the history as
one JSON document. -/
def save_history (history : History) : HistoryFile := .content (historyToJson history)

/-- `JobTracker.load_history` (job_tracker.py:15-33): a missing file, an
unreadable file, and a file `json.load` raises on all fall back to the
fresh empty history (the raised exception is caught); a history-shaped
document is taken as the history. -/
def load_history (file : HistoryFile) (now : PyDateTime) : Option History :=
  match file with
  | .absent => some (fresh_history now)
  | .unreadable => some (fresh_history now)
  | .corrupt => some (fresh_history now)
  | .content j => jsonToHistory j

/-! ## Dictionary lemmas -/

theorem dictLookup_cons_self {κ α : Type} [DecidableEq κ] (k : κ) (v : α) (m : List (κ × α)) :
    dictLookup ((k, v) :: m) k = some v := by simp [dictLookup]

theorem dictLookup_insert_self {κ α : Type} [DecidableEq κ] (m : List (κ × α)) (k : κ) (v : α) :
    dictLookup (dictInsert m k v) k = some v := by
  induction m with
  | nil => simp [dictInsert, dictLookup]
  | cons e rest ih =>
    obtain ⟨k1, v1⟩ := e
    by_cases h : k1 = k <;> simp [dictInsert, h, dictLookup, ih]

theorem dictLookup_insert_ne {κ α : Type} [DecidableEq κ] (m : List (κ × α)) {k' k : κ} (v : α)
    (h : k' ≠ k) : dictLookup (dictInsert m k' v) k = dictLookup m k := by
  induction m with
  | nil => simp [dictInsert, dictLookup, h]
  | cons e rest ih =>
    obtain ⟨k1, v1⟩ := e
    by_cases h1 : k1 = k'
    · subst h1; simp [dictInsert, dictLookup, h]
    · simp [dictInsert, h1]
      by_cases h2 : k1 = k <;> simp [dictLookup, h2, ih]

/-! ## Unfolding equations for the `filter_new_jobs` loop -/

theorem filterNewJobsGo_nil (now : PyDateTime) (th : Int) (seen : List (String × PyDateTime)) :
    filterNewJobsGo now th seen [] = ([], seen) := rfl

/-- Fingerprint absent: emit and insert `now`. -/
theorem filterNewJobsGo_cons_new (now : PyDateTime) (th : Int) (seen : List (String × PyDateTime))
    (job : Job) (rest : List Job)
    (h : dictLookup seen (generate_job_hash job) = none) :
    filterNewJobsGo now th seen (job :: rest) =
      ((job :: (filterNewJobsGo now th (dictInsert seen (generate_job_hash job) now) rest).1),
       (filterNewJobsGo now th (dictInsert seen (generate_job_hash job) now) rest).2) := by
  simp [filterNewJobsGo, h]

/-- Fingerprint present but aged out: emit and overwrite to `now`. -/
theorem filterNewJobsGo_cons_old (now : PyDateTime) (th : Int) (seen : List (String × PyDateTime))
    (job : Job) (rest : List Job) (fs : PyDateTime)
    (h : dictLookup seen (generate_job_hash job) = some fs) (hd : fs.date ≤ th) :
    filterNewJobsGo now th seen (job :: rest) =
      ((job :: (filterNewJobsGo now th (dictInsert seen (generate_job_hash job) now) rest).1),
       (filterNewJobsGo now th (dictInsert seen (generate_job_hash job) now) rest).2) := by
  simp [filterNewJobsGo, h, not_lt.mpr hd]

/-- Fingerprint present and recent: suppress, leave the store alone. -/
theorem filterNewJobsGo_cons_seen (now : PyDateTime) (th : Int) (seen : List (String × PyDateTime))
    (job : Job) (rest : List Job) (fs : PyDateTime)
    (h : dictLookup seen (generate_job_hash job) = some fs) (hd : th < fs.date) :
    filterNewJobsGo now th seen (job :: rest) = filterNewJobsGo now th seen rest := by
  simp [filterNewJobsGo, h, hd]

/-! ## Concrete fixtures used by witnesses and counterexamples -/

def tPast : PyDateTime := ⟨19900, 0⟩

def nowA : PyDateTime := ⟨20000, 5⟩

def jobA : Job :=
  { title := "Operations Coordinator", company := "Acme", location := some "Gurugram",
    salary := "10 LPA", url := "https://a.example/1", source := "linkedin",
    experience := "Entry level", description := "coordinate operations" }

def jobB : Job :=
  { title := "Supply Chain Analyst", company := "Beta Ltd", location := some "Pune",
    salary := "8 LPA", url := "https://b.example/2", source := "naukri",
    experience := "Entry level", description := "analyze supply chain" }

def histEmpty : History := { seen_jobs := [], daily_counts := [], last_cleanup := tPast }

def histRecent : History :=
  { seen_jobs := [(generate_job_hash jobA, ⟨20000, 0⟩)], daily_counts := [],
    last_cleanup := tPast }

def histOld : History :=
  { seen_jobs := [(generate_job_hash jobA, ⟨19990, 3⟩)], daily_counts := [],
    last_cleanup := tPast }

/-! ## C1: the three-case contract of the New-Job Selector -/

/-- C1: for every job list, `days_threshold` and history store,
`filter_new_jobs` handles each record by its fingerprint: if the fingerprint
is absent from `seen_jobs`, the record is emitted and `{fingerprint → now}`
is inserted; if present with stored date `≤ today − days_threshold`, the
record is emitted and the stored timestamp is overwritten to `now`; if
present with stored date `> today − days_threshold`, the record is not
emitted and the store is left unchanged. -/
theorem new_job_selector_three_cases (history : History) (job : Job) (rest : List Job)
    (days_threshold : Int) (now : PyDateTime) :
    (dictLookup history.seen_jobs (generate_job_hash job) = none →
      filter_new_jobs history (job :: rest) days_threshold now =
        ((job :: (filter_new_jobs
            { history with
              seen_jobs := dictInsert history.seen_jobs (generate_job_hash job) now }
            rest days_threshold now).1),
         (filter_new_jobs
            { history with
              seen_jobs := dictInsert history.seen_jobs (generate_job_hash job) now }
            rest days_threshold now).2))
    ∧ (∀ fs, dictLookup history.seen_jobs (generate_job_hash job) = some fs →
        fs.date ≤ now.date - days_threshold →
        filter_new_jobs history (job :: rest) days_threshold now =
          ((job :: (filter_new_jobs
              { history with
                seen_jobs := dictInsert history.seen_jobs (generate_job_hash job) now }
              rest days_threshold now).1),
           (filter_new_jobs
              { history with
                seen_jobs := dictInsert history.seen_jobs (generate_job_hash job) now }
              rest days_threshold now).2))
    ∧ (∀ fs, dictLookup history.seen_jobs (generate_job_hash job) = some fs →
        now.date - days_threshold < fs.date →
        filter_new_jobs history (job :: rest) days_threshold now =
          filter_new_jobs history rest days_threshold now) := by
  refine ⟨fun h => ?_, fun fs hfs hle => ?_, fun fs hfs hlt => ?_⟩
  · simp only [filter_new_jobs]
    rw [filterNewJobsGo_cons_new now _ _ job rest h]
  · simp only [filter_new_jobs]
    rw [filterNewJobsGo_cons_old now _ _ job rest fs hfs hle]
  · simp only [filter_new_jobs]
    rw [filterNewJobsGo_cons_seen now _ _ job rest fs hfs hlt]

/-- Witness for C1: all three cases exercised on concrete stores. -/
theorem new_job_selector_three_cases_witness :
    filter_new_jobs histEmpty [jobA] 7 nowA =
      ([jobA], { seen_jobs := [(generate_job_hash jobA, nowA)], daily_counts := [],
                 last_cleanup := tPast })
    ∧ filter_new_jobs histOld [jobA] 7 nowA =
      ([jobA], { seen_jobs := [(generate_job_hash jobA, nowA)], daily_counts := [],
                 last_cleanup := tPast })
    ∧ filter_new_jobs histRecent [jobA] 7 nowA = ([], histRecent) := by
  refine ⟨?_, ?_, ?_⟩
  · have T := (new_job_selector_three_cases histEmpty jobA [] 7 nowA).1 rfl
    rw [T]
    simp [filter_new_jobs, filterNewJobsGo, dictInsert, histEmpty]
  · have T := (new_job_selector_three_cases histOld jobA [] 7 nowA).2.1 ⟨19990, 3⟩
      (dictLookup_cons_self _ _ _) (by decide)
    rw [T]
    simp [filter_new_jobs, filterNewJobsGo, dictInsert, histOld]
  · have T := (new_job_selector_three_cases histRecent jobA [] 7 nowA).2.2 ⟨20000, 0⟩
      (dictLookup_cons_self _ _ _) (by decide)
    rw [T]
    rfl

/-! ## C3: when is the stored timestamp overwritten? -/

/-- C3 counterexample: a fingerprint already present in the store reappears
in a run of the selector, yet its stored timestamp is not overwritten with
the current time: the store comes back unchanged, still holding
`⟨20000, 0⟩ ≠ now`.  (The code only overwrites on emission, i.e. when the
stored date has aged out of the window.) -/
theorem timestamp_overwrite_on_reappearance_counterexample :
    (filter_new_jobs histRecent [jobA] 7 nowA).2 = histRecent
    ∧ dictLookup histRecent.seen_jobs (generate_job_hash jobA) = some ⟨20000, 0⟩
    ∧ (⟨20000, 0⟩ : PyDateTime) ≠ nowA := by
  refine ⟨?_, dictLookup_cons_self _ _ _, by decide⟩
  simp only [filter_new_jobs, histRecent]
  rw [filterNewJobsGo_cons_seen nowA _ _ jobA [] ⟨20000, 0⟩ (dictLookup_cons_self _ _ _)
    (by decide)]
  rfl

/-- C3 (amended): for a fingerprint present in the store, a run of the
selector over a record with that fingerprint overwrites the stored
timestamp with `now` exactly when the record is emitted (stored date aged
out of the window); while still inside the window the stored timestamp is
preserved — so the stored value denotes most-recently-emitted, not
first-ever-seen. -/
theorem stored_timestamp_on_reappearance (history : History) (job : Job)
    (days_threshold : Int) (now : PyDateTime) (fs : PyDateTime)
    (hfs : dictLookup history.seen_jobs (generate_job_hash job) = some fs) :
    dictLookup ((filter_new_jobs history [job] days_threshold now).2).seen_jobs
        (generate_job_hash job)
      = some (if fs.date ≤ now.date - days_threshold then now else fs)
    ∧ (filter_new_jobs history [job] days_threshold now).1
      = (if fs.date ≤ now.date - days_threshold then [job] else []) := by
  by_cases hle : fs.date ≤ now.date - days_threshold
  · simp only [filter_new_jobs, if_pos hle]
    rw [filterNewJobsGo_cons_old now _ _ job [] fs hfs hle]
    exact ⟨by simpa [filterNewJobsGo_nil] using dictLookup_insert_self history.seen_jobs _ now,
      rfl⟩
  · simp only [filter_new_jobs, if_neg hle]
    rw [filterNewJobsGo_cons_seen now _ _ job [] fs hfs (not_le.mp hle)]
    exact ⟨by simpa [filterNewJobsGo_nil] using hfs, rfl⟩

/-- Witness for C3 (amended): an aged-out entry is overwritten to `now`,
an in-window entry is preserved. -/
theorem stored_timestamp_on_reappearance_witness :
    dictLookup ((filter_new_jobs histOld [jobA] 7 nowA).2).seen_jobs (generate_job_hash jobA)
      = some nowA
    ∧ dictLookup ((filter_new_jobs histRecent [jobA] 7 nowA).2).seen_jobs (generate_job_hash jobA)
      = some ⟨20000, 0⟩ := by
  constructor
  · have T := (stored_timestamp_on_reappearance histOld jobA 7 nowA ⟨19990, 3⟩
      (dictLookup_cons_self _ _ _)).1
    rw [if_pos (by decide : ((⟨19990, 3⟩ : PyDateTime).date ≤ nowA.date - 7))] at T
    exact T
  · have T := (stored_timestamp_on_reappearance histRecent jobA 7 nowA ⟨20000, 0⟩
      (dictLookup_cons_self _ _ _)).1
    rw [if_neg (by decide : ¬ ((⟨20000, 0⟩ : PyDateTime).date ≤ nowA.date - 7))] at T
    exact T

/-! ## C2: the fingerprint depends only on normalized (title, company, location) -/

/-- A job equal to `jobA` on normalized title/company/location, differing in
every identity-irrelevant field. -/
def jobAvariant : Job :=
  { title := "OPERATIONS COORDINATOR  ", company := " ACME", location := some "GURUGRAM ",
    salary := "12 LPA", url := "https://other.example/9", source := "naukri",
    experience := "0-1 years", description := "different text" }

/-- C2: records agreeing on lower-cased, stripped title, company and
location get the same fingerprint, no matter how the remaining fields
differ — the fingerprint is a pure function of the normalized triple. -/
theorem generate_job_hash_determinism (r1 r2 : Job)
    (ht : py_strip (py_lower r1.title) = py_strip (py_lower r2.title))
    (hc : py_strip (py_lower r1.company) = py_strip (py_lower r2.company))
    (hl : py_strip (py_lower (r1.location.getD "")) = py_strip (py_lower (r2.location.getD ""))) :
    generate_job_hash r1 = generate_job_hash r2 := by
  unfold generate_job_hash job_string
  rw [ht, hc, hl]

/-- Witness for C2: `jobA` and `jobAvariant` differ in salary, url, source,
experience and description yet share a fingerprint. -/
theorem generate_job_hash_determinism_witness :
    generate_job_hash jobA = generate_job_hash jobAvariant
    ∧ jobA.salary ≠ jobAvariant.salary ∧ jobA.url ≠ jobAvariant.url
    ∧ jobA.source ≠ jobAvariant.source ∧ jobA.experience ≠ jobAvariant.experience
    ∧ jobA.description ≠ jobAvariant.description := by
  exact ⟨generate_job_hash_determinism jobA jobAvariant (by decide) (by decide) (by decide),
    by decide, by decide, by decide, by decide, by decide⟩

/-! ## C9: the fingerprint is total and a 32-character hex digest -/

/-- Lower-case hex digit test. -/
def isHexChar (c : Char) : Bool := ('0' ≤ c && c ≤ '9') || ('a' ≤ c && c ≤ 'f')

theorem hexDigitChar_isHex (n : Nat) (h : n < 16) : isHexChar (hexDigitChar n) = true := by
  interval_cases n <;> decide

theorem byteToHex_isHex (n : Nat) : (byteToHex n).all isHexChar = true := by
  simp only [byteToHex, List.all_cons, List.all_nil, Bool.and_true]
  rw [hexDigitChar_isHex _ (Nat.mod_lt _ (by norm_num)),
    hexDigitChar_isHex _ (Nat.mod_lt _ (by norm_num))]
  rfl

theorem flatMap_byteToHex_length (l : List Nat) :
    (l.flatMap byteToHex).length = 2 * l.length := by
  induction l with
  | nil => rfl
  | cons a t ih => simp [List.flatMap_cons, byteToHex, ih]; omega

theorem flatMap_byteToHex_all (l : List Nat) :
    (l.flatMap byteToHex).all isHexChar = true := by
  induction l with
  | nil => rfl
  | cons a t ih => simp [List.flatMap_cons, List.all_append, byteToHex_isHex, ih]

theorem md5Hex_shape (msg : List Nat) : ∃ a b c d, md5Hex msg =
    ⟨(wordToBytesLE4 a ++ wordToBytesLE4 b ++ wordToBytesLE4 c ++ wordToBytesLE4 d).flatMap
      byteToHex⟩ := by
  unfold md5Hex
  rcases md5Chunks (0x67452301, 0xefcdab89, 0x98badcfe, 0x10325476) (md5Pad msg) with
    ⟨a, b, c, d⟩
  exact ⟨a, b, c, d, rfl⟩

/-- C9: `generate_job_hash` is a total function of the record — in
particular it is defined when `location` is absent (the code reads it with
`job.get('location', '')`) — and always returns a 32-character lower-case
hex digest. -/
theorem generate_job_hash_total_hex (job : Job) :
    (generate_job_hash job).length = 32
    ∧ (generate_job_hash job).data.all isHexChar = true := by
  unfold generate_job_hash
  obtain ⟨a, b, c, d, h⟩ := md5Hex_shape (strBytes (job_string job))
  rw [h]
  constructor
  · show ((wordToBytesLE4 a ++ wordToBytesLE4 b ++ wordToBytesLE4 c
      ++ wordToBytesLE4 d).flatMap byteToHex).length = 32
    rw [flatMap_byteToHex_length]
    simp [wordToBytesLE4]
  · exact flatMap_byteToHex_all _

/-! ## C7: order preservation -/

theorem filterNewJobsGo_sublist (now : PyDateTime) (th : Int) :
    ∀ (jobs : List Job) (seen : List (String × PyDateTime)),
      ((filterNewJobsGo now th seen jobs).1).Sublist jobs := by
  intro jobs
  induction jobs with
  | nil => intro seen; simp [filterNewJobsGo_nil]
  | cons job rest ih =>
    intro seen
    rcases hl : dictLookup seen (generate_job_hash job) with _ | fs
    · rw [filterNewJobsGo_cons_new now th seen job rest hl]
      exact (ih _).cons₂ _
    · by_cases hd : th < fs.date
      · rw [filterNewJobsGo_cons_seen now th seen job rest fs hl hd]
        exact (ih _).cons _
      · rw [filterNewJobsGo_cons_old now th seen job rest fs hl (not_lt.mp hd)]
        exact (ih _).cons₂ _

/-! ## C6: cross-source reconciliation in `search_operations_jobs` -/

theorem opsDedupGo_sublist : ∀ (jobs : List Job) (seen : List (String × String)),
    (opsDedupGo seen jobs).Sublist jobs := by
  intro jobs
  induction jobs with
  | nil => intro seen; simp [opsDedupGo]
  | cons job rest ih =>
    intro seen
    by_cases h : opsKey job ∈ seen
    · simp only [opsDedupGo, if_pos h]
      exact (ih _).cons _
    · simp only [opsDedupGo, if_neg h]
      exact (ih _).cons₂ _

/-- Every record kept by the dedup loop has a key outside `seen`. -/
theorem opsDedupGo_key_notin : ∀ (jobs : List Job) (seen : List (String × String)) (r : Job),
    r ∈ opsDedupGo seen jobs → opsKey r ∉ seen := by
  intro jobs
  induction jobs with
  | nil => intro seen r hr; simp [opsDedupGo] at hr
  | cons job rest ih =>
    intro seen r hr
    by_cases h : opsKey job ∈ seen
    · simp only [opsDedupGo, if_pos h] at hr
      exact ih _ r hr
    · simp only [opsDedupGo, if_neg h] at hr
      rcases List.mem_cons.mp hr with rfl | hr'
      · exact h
      · have hn := ih _ r hr'
        exact fun hmem => hn (List.mem_cons_of_mem _ hmem)

/-- The kept records have pairwise distinct keys. -/
theorem opsDedupGo_keys_nodup : ∀ (jobs : List Job) (seen : List (String × String)),
    ((opsDedupGo seen jobs).map opsKey).Nodup := by
  intro jobs
  induction jobs with
  | nil => intro seen; simp [opsDedupGo]
  | cons job rest ih =>
    intro seen
    by_cases h : opsKey job ∈ seen
    · simp only [opsDedupGo, if_pos h]
      exact ih _
    · simp only [opsDedupGo, if_neg h, List.map_cons, List.nodup_cons]
      refine ⟨fun hmem => ?_, ih _⟩
      rcases List.mem_map.mp hmem with ⟨r, hr, he⟩
      exact opsDedupGo_key_notin rest _ r hr (he ▸ List.mem_cons_self _ _)

/-- Each kept record is the first input record bearing its key. -/
theorem opsDedupGo_first_occurrence : ∀ (jobs : List Job) (seen : List (String × String))
    (r : Job), r ∈ opsDedupGo seen jobs →
    (jobs.filter (fun x => opsKey x == opsKey r)).head? = some r := by
  intro jobs
  induction jobs with
  | nil => intro seen r hr; simp [opsDedupGo] at hr
  | cons job rest ih =>
    intro seen r hr
    by_cases h : opsKey job ∈ seen
    · simp only [opsDedupGo, if_pos h] at hr
      have hne : opsKey job ≠ opsKey r := by
        intro he
        exact opsDedupGo_key_notin rest seen r hr (he ▸ h)
      rw [List.filter_cons, if_neg (by simpa using hne)]
      exact ih seen r hr
    · simp only [opsDedupGo, if_neg h] at hr
      rcases List.mem_cons.mp hr with rfl | hr'
      · rw [List.filter_cons, if_pos (by simp)]
        rfl
      · have hnotin := opsDedupGo_key_notin rest (opsKey job :: seen) r hr'
        have hne : opsKey job ≠ opsKey r := by
          intro he
          exact hnotin (he ▸ List.mem_cons_self _ _)
        rw [List.filter_cons, if_neg (by simpa using hne)]
        exact ih _ r hr'

/-- Every input key is represented among the kept records (or was already
in `seen`). -/
theorem opsDedupGo_covers : ∀ (jobs : List Job) (seen : List (String × String)) (r : Job),
    r ∈ jobs → (∃ q ∈ opsDedupGo seen jobs, opsKey q = opsKey r) ∨ opsKey r ∈ seen := by
  intro jobs
  induction jobs with
  | nil => intro seen r hr; simp at hr
  | cons job rest ih =>
    intro seen r hr
    by_cases h : opsKey job ∈ seen
    · simp only [opsDedupGo, if_pos h]
      rcases List.mem_cons.mp hr with rfl | hr'
      · exact Or.inr h
      · exact ih seen r hr'
    · simp only [opsDedupGo, if_neg h]
      rcases List.mem_cons.mp hr with rfl | hr'
      · exact Or.inl ⟨r, List.mem_cons_self _ _, rfl⟩
      · rcases ih (opsKey job :: seen) r hr' with ⟨q, hq, he⟩ | hmem
        · exact Or.inl ⟨q, List.mem_cons_of_mem _ hq, he⟩
        · rcases List.mem_cons.mp hmem with he | hs
          · exact Or.inl ⟨job, List.mem_cons_self _ _, he.symm⟩
          · exact Or.inr hs

/-- C6: in `search_operations_jobs`, records from all sources are
deduplicated on the exact-match key (lower-cased, stripped title, company)
— location plays no part in `opsKey` — keeping, unmodified, the first
record in scan order for each key and discarding later duplicates, so the
result has at most one record per key and a representative of every input
key. -/
theorem search_operations_jobs_dedup_spec (jobs : List Job) :
    (search_operations_jobs_dedup jobs).Sublist jobs
    ∧ ((search_operations_jobs_dedup jobs).map opsKey).Nodup
    ∧ (∀ r ∈ search_operations_jobs_dedup jobs,
        (jobs.filter (fun x => opsKey x == opsKey r)).head? = some r)
    ∧ (∀ r ∈ jobs, ∃ q ∈ search_operations_jobs_dedup jobs, opsKey q = opsKey r) := by
  refine ⟨opsDedupGo_sublist jobs [], opsDedupGo_keys_nodup jobs [],
    fun r hr => opsDedupGo_first_occurrence jobs [] r hr, fun r hr => ?_⟩
  rcases opsDedupGo_covers jobs [] r hr with h | h
  · exact h
  · simp at h

/-- Witness for C6: with `jobAvariant` sharing `jobA`'s key (differing in
location and all non-key fields), the loop keeps `[jobA, jobB]`: the first
occurrence survives unmodified and the duplicate is dropped. -/
theorem search_operations_jobs_dedup_spec_witness :
    search_operations_jobs_dedup [jobA, jobB, jobAvariant] = [jobA, jobB]
    ∧ ([jobA, jobB, jobAvariant].filter
        (fun x => opsKey x == opsKey jobA)).head? = some jobA
    ∧ (∃ q ∈ search_operations_jobs_dedup [jobA, jobB, jobAvariant],
        opsKey q = opsKey jobAvariant) := by
  have T := search_operations_jobs_dedup_spec [jobA, jobB, jobAvariant]
  exact ⟨by decide, T.2.2.1 jobA (by decide), T.2.2.2 jobAvariant (by decide)⟩

/-- C7: for every input list and store, the emitted list of
`filter_new_jobs` is a subsequence of the input list: records appear in
input order, each emitted occurrence once, with nothing inserted. -/
theorem filter_new_jobs_order_preservation (history : History) (jobs : List Job)
    (days_threshold : Int) (now : PyDateTime) :
    ((filter_new_jobs history jobs days_threshold now).1).Sublist jobs := by
  simp only [filter_new_jobs]
  exact filterNewJobsGo_sublist now _ jobs history.seen_jobs

/-! ## C10: deduplication of repeated fingerprints within one call -/

/-- While the store holds a within-window entry for key `h`, the loop never
emits a record with fingerprint `h` and leaves that entry untouched. -/
theorem filterNewJobsGo_suppressed_invariant (now : PyDateTime) (th : Int) (h : String) :
    ∀ (jobs : List Job) (seen : List (String × PyDateTime)) (fs : PyDateTime),
      dictLookup seen h = some fs → th < fs.date →
      (∀ r ∈ (filterNewJobsGo now th seen jobs).1, generate_job_hash r ≠ h)
      ∧ dictLookup (filterNewJobsGo now th seen jobs).2 h = some fs := by
  intro jobs
  induction jobs with
  | nil =>
    intro seen fs hl hd
    exact ⟨by simp [filterNewJobsGo_nil], by simp [filterNewJobsGo_nil, hl]⟩
  | cons job rest ih =>
    intro seen fs hl hd
    by_cases hj : generate_job_hash job = h
    · rw [filterNewJobsGo_cons_seen now th seen job rest fs (by rw [hj]; exact hl) hd]
      exact ih seen fs hl hd
    · have step : ∀ res : List Job × List (String × PyDateTime),
        (∀ r ∈ res.1, generate_job_hash r ≠ h) ∧ dictLookup res.2 h = some fs →
        (∀ r ∈ job :: res.1, generate_job_hash r ≠ h) ∧ dictLookup res.2 h = some fs := by
        rintro res ⟨h1, h2⟩
        refine ⟨fun r hr => ?_, h2⟩
        rcases List.mem_cons.mp hr with rfl | hr'
        · exact hj
        · exact h1 r hr'
      rcases hl2 : dictLookup seen (generate_job_hash job) with _ | fs2
      · rw [filterNewJobsGo_cons_new now th seen job rest hl2]
        refine step _ (ih _ fs ?_ hd)
        rw [dictLookup_insert_ne _ _ hj]
        exact hl
      · by_cases hd2 : th < fs2.date
        · rw [filterNewJobsGo_cons_seen now th seen job rest fs2 hl2 hd2]
          exact ih seen fs hl hd
        · rw [filterNewJobsGo_cons_old now th seen job rest fs2 hl2 (not_lt.mp hd2)]
          refine step _ (ih _ fs ?_ hd)
          rw [dictLookup_insert_ne _ _ hj]
          exact hl

/-- With a positive window, the emitted records of one call have pairwise
distinct fingerprints. -/
theorem filterNewJobsGo_nodup_hashes (now : PyDateTime) (th : Int) (hth : th < now.date) :
    ∀ (jobs : List Job) (seen : List (String × PyDateTime)),
      (((filterNewJobsGo now th seen jobs).1).map generate_job_hash).Nodup := by
  intro jobs
  induction jobs with
  | nil => intro seen; simp [filterNewJobsGo_nil]
  | cons job rest ih =>
    intro seen
    have emitted : ∀ res : List Job × List (String × PyDateTime),
      res = filterNewJobsGo now th (dictInsert seen (generate_job_hash job) now) rest →
      ((List.map generate_job_hash (job :: res.1)).Nodup) := by
      rintro res rfl
      simp only [List.map_cons, List.nodup_cons]
      refine ⟨fun hmem => ?_, ih _⟩
      rcases List.mem_map.mp hmem with ⟨r, hr, he⟩
      exact (filterNewJobsGo_suppressed_invariant now th (generate_job_hash job) rest
        (dictInsert seen (generate_job_hash job) now) now
        (dictLookup_insert_self _ _ _) hth).1 r hr he
    rcases hl : dictLookup seen (generate_job_hash job) with _ | fs
    · rw [filterNewJobsGo_cons_new now th seen job rest hl]
      exact emitted _ rfl
    · by_cases hd : th < fs.date
      · rw [filterNewJobsGo_cons_seen now th seen job rest fs hl hd]
        exact ih seen
      · rw [filterNewJobsGo_cons_old now th seen job rest fs hl (not_lt.mp hd)]
        exact emitted _ rfl

/-- With a positive window, every emitted record is the first input record
bearing its fingerprint. -/
theorem filterNewJobsGo_first_occurrence (now : PyDateTime) (th : Int) (hth : th < now.date) :
    ∀ (jobs : List Job) (seen : List (String × PyDateTime)),
      ∀ r ∈ (filterNewJobsGo now th seen jobs).1,
        (jobs.filter (fun x => generate_job_hash x == generate_job_hash r)).head? = some r := by
  intro jobs
  induction jobs with
  | nil => intro seen r hr; simp [filterNewJobsGo_nil] at hr
  | cons job rest ih =>
    intro seen r hr
    rcases hl : dictLookup seen (generate_job_hash job) with _ | fs
    · rw [filterNewJobsGo_cons_new now th seen job rest hl] at hr
      rcases List.mem_cons.mp hr with rfl | hr'
      · rw [List.filter_cons, if_pos (by simp)]
        rfl
      · have hne := (filterNewJobsGo_suppressed_invariant now th (generate_job_hash job) rest
          (dictInsert seen (generate_job_hash job) now) now
          (dictLookup_insert_self _ _ _) hth).1 r hr'
        rw [List.filter_cons, if_neg (by simpa using Ne.symm hne)]
        exact ih _ r hr'
    · by_cases hd : th < fs.date
      · rw [filterNewJobsGo_cons_seen now th seen job rest fs hl hd] at hr
        have hne := (filterNewJobsGo_suppressed_invariant now th (generate_job_hash job) rest
          seen fs hl hd).1 r hr
        rw [List.filter_cons, if_neg (by simpa using Ne.symm hne)]
        exact ih seen r hr
      · rw [filterNewJobsGo_cons_old now th seen job rest fs hl (not_lt.mp hd)] at hr
        rcases List.mem_cons.mp hr with rfl | hr'
        · rw [List.filter_cons, if_pos (by simp)]
          rfl
        · have hne := (filterNewJobsGo_suppressed_invariant now th (generate_job_hash job) rest
            (dictInsert seen (generate_job_hash job) now) now
            (dictLookup_insert_self _ _ _) hth).1 r hr'
          rw [List.filter_cons, if_neg (by simpa using Ne.symm hne)]
          exact ih _ r hr'

/-- With `now.date ≤ threshold` (e.g. `days_threshold = 0`), once key `h`
is absent or aged out, every input record with fingerprint `h` is emitted. -/
theorem filterNewJobsGo_emit_all (now : PyDateTime) (th : Int) (hth : now.date ≤ th)
    (h : String) :
    ∀ (jobs : List Job) (seen : List (String × PyDateTime)),
      (dictLookup seen h = none ∨ ∃ fs, dictLookup seen h = some fs ∧ fs.date ≤ th) →
      ∀ r ∈ jobs, generate_job_hash r = h → r ∈ (filterNewJobsGo now th seen jobs).1 := by
  intro jobs
  induction jobs with
  | nil => intro seen hpre r hr; simp at hr
  | cons job rest ih =>
    intro seen hpre r hr hhash
    by_cases hj : generate_job_hash job = h
    · have hemit : filterNewJobsGo now th seen (job :: rest) =
        ((job :: (filterNewJobsGo now th (dictInsert seen (generate_job_hash job) now) rest).1),
         (filterNewJobsGo now th (dictInsert seen (generate_job_hash job) now) rest).2) := by
        rcases hpre with hnone | ⟨fs, hsome, hold⟩
        · exact filterNewJobsGo_cons_new now th seen job rest (by rw [hj]; exact hnone)
        · exact filterNewJobsGo_cons_old now th seen job rest fs (by rw [hj]; exact hsome) hold
      rw [hemit]
      rcases List.mem_cons.mp hr with rfl | hr'
      · exact List.mem_cons_self _ _
      · refine List.mem_cons_of_mem _ (ih _ ?_ r hr' hhash)
        right
        refine ⟨now, ?_, hth⟩
        rw [hj] at *
        exact dictLookup_insert_self _ _ _
    · have hpre' : dictLookup (dictInsert seen (generate_job_hash job) now) h = none
          ∨ ∃ fs, dictLookup (dictInsert seen (generate_job_hash job) now) h = some fs
              ∧ fs.date ≤ th := by
        rw [dictLookup_insert_ne _ _ hj]
        exact hpre
      have hmem : r ∈ rest := by
        rcases List.mem_cons.mp hr with rfl | hr'
        · exact absurd hhash hj
        · exact hr'
      rcases hl2 : dictLookup seen (generate_job_hash job) with _ | fs2
      · rw [filterNewJobsGo_cons_new now th seen job rest hl2]
        exact List.mem_cons_of_mem _ (ih _ hpre' r hmem hhash)
      · by_cases hd2 : th < fs2.date
        · rw [filterNewJobsGo_cons_seen now th seen job rest fs2 hl2 hd2]
          exact ih seen hpre r hmem hhash
        · rw [filterNewJobsGo_cons_old now th seen job rest fs2 hl2 (not_lt.mp hd2)]
          exact List.mem_cons_of_mem _ (ih _ hpre' r hmem hhash)

/-- C10: in a single `filter_new_jobs` call with `days_threshold ≥ 1`,
records sharing a fingerprint yield at most one emission — the first such
record — because the first occurrence's `{fingerprint → now}` insertion
puts later occurrences inside the window; with `days_threshold = 0` this
fails: whenever any occurrence of a fingerprint is emitted, every
occurrence of it is emitted. -/
theorem filter_new_jobs_within_call_dedup (history : History) (jobs : List Job)
    (days_threshold : Int) (now : PyDateTime) :
    (1 ≤ days_threshold →
      (((filter_new_jobs history jobs days_threshold now).1).map generate_job_hash).Nodup
      ∧ ∀ r ∈ (filter_new_jobs history jobs days_threshold now).1,
          (jobs.filter (fun x => generate_job_hash x == generate_job_hash r)).head? = some r)
    ∧ (days_threshold = 0 →
        ∀ r ∈ (filter_new_jobs history jobs days_threshold now).1,
          ∀ r2 ∈ jobs, generate_job_hash r2 = generate_job_hash r →
            r2 ∈ (filter_new_jobs history jobs days_threshold now).1) := by
  constructor
  · intro hd
    have hth : now.date - days_threshold < now.date := by omega
    exact ⟨filterNewJobsGo_nodup_hashes now _ hth jobs history.seen_jobs,
      fun r hr => filterNewJobsGo_first_occurrence now _ hth jobs history.seen_jobs r hr⟩
  · intro hd r hr r2 hr2 hh
    subst hd
    simp only [filter_new_jobs] at hr ⊢
    rcases hl : dictLookup history.seen_jobs (generate_job_hash r) with _ | fs
    · exact filterNewJobsGo_emit_all now _ (by omega) (generate_job_hash r) jobs
        history.seen_jobs (Or.inl hl) r2 hr2 hh
    · by_cases hfs : fs.date ≤ now.date - 0
      · exact filterNewJobsGo_emit_all now _ (by omega) (generate_job_hash r) jobs
          history.seen_jobs (Or.inr ⟨fs, hl, hfs⟩) r2 hr2 hh
      · exact absurd rfl ((filterNewJobsGo_suppressed_invariant now _ (generate_job_hash r)
          jobs history.seen_jobs fs hl (not_le.mp hfs)).1 r hr)

/-- Witness for C10: `jobA` and `jobAvariant` share a fingerprint; with
`days_threshold = 1` the call emits fingerprints without repetition, and
with `days_threshold = 0` the duplicate occurrence is emitted as well. -/
theorem filter_new_jobs_within_call_dedup_witness :
    (((filter_new_jobs histEmpty [jobA, jobAvariant] 1 nowA).1).map generate_job_hash).Nodup
    ∧ jobAvariant ∈ (filter_new_jobs histEmpty [jobA, jobAvariant] 0 nowA).1 := by
  constructor
  · exact ((filter_new_jobs_within_call_dedup histEmpty [jobA, jobAvariant] 1 nowA).1
      (by decide)).1
  · exact (filter_new_jobs_within_call_dedup histEmpty [jobA, jobAvariant] 0 nowA).2 rfl
      jobA (by decide) jobAvariant (by decide) (by decide)

/-! ## C4: the retention sweeper -/

theorem dictErase_cons_self {κ α : Type} [DecidableEq κ] (k : κ) (v : α) (m : List (κ × α)) :
    dictErase ((k, v) :: m) k = m := by simp [dictErase]

theorem dictErase_cons_ne {κ α : Type} [DecidableEq κ] {k1 k : κ} (v : α) (m : List (κ × α))
    (h : k1 ≠ k) : dictErase ((k1, v) :: m) k = (k1, v) :: dictErase m k := by
  simp [dictErase, h]

/-- Erasing keys that all differ from `k` leaves the `(k, v)` binding at
the front. -/
theorem foldl_dictErase_notmem {κ α : Type} [DecidableEq κ] (k : κ) (v : α) :
    ∀ (ks : List κ) (m : List (κ × α)), (∀ x ∈ ks, x ≠ k) →
      List.foldl dictErase ((k, v) :: m) ks = (k, v) :: List.foldl dictErase m ks := by
  intro ks
  induction ks with
  | nil => intro m h; rfl
  | cons x t ih =>
    intro m h
    simp only [List.foldl_cons]
    rw [dictErase_cons_ne v m (Ne.symm (h x (List.mem_cons_self _ _)))]
    exact ih _ (fun y hy => h y (List.mem_cons_of_mem _ hy))

/-- With duplicate-free keys, collecting via `filter p` and deleting each
collected key equals filtering on `!p` — the `cleanup_old_history` shape. -/
theorem foldl_dictErase_filter {κ α : Type} [DecidableEq κ] (p : κ × α → Bool) :
    ∀ m : List (κ × α), (m.map Prod.fst).Nodup →
      List.foldl dictErase m ((m.filter p).map Prod.fst)
        = m.filter (fun e => !(p e)) := by
  intro m
  induction m with
  | nil => intro h; rfl
  | cons e rest ih =>
    obtain ⟨k, v⟩ := e
    intro hnd
    rw [List.map_cons, List.nodup_cons] at hnd
    have hks : ∀ x ∈ (rest.filter p).map Prod.fst, x ≠ k := by
      intro x hx he
      subst he
      rcases List.mem_map.mp hx with ⟨e2, he2, hfst⟩
      have hmem : e2.1 ∈ rest.map Prod.fst :=
        List.mem_map_of_mem Prod.fst (List.mem_of_mem_filter he2)
      rw [hfst] at hmem
      exact hnd.1 hmem
    by_cases hp : p (k, v)
    · rw [List.filter_cons_of_pos hp, List.map_cons, List.foldl_cons, dictErase_cons_self,
        List.filter_cons_of_neg (by simp [hp]), ih hnd.2]
    · rw [List.filter_cons_of_neg hp,
        foldl_dictErase_notmem k v _ rest hks, ih hnd.2,
        List.filter_cons_of_pos (by simp [hp])]

/-- C4: for every store with duplicate-free keys (as Python dictionaries
guarantee), `cleanup_old_history` removes exactly the `seen_jobs` entries
whose timestamp is strictly older than `now − days_to_keep` and exactly the
`daily_counts` entries whose date (at midnight) is strictly older than that
cutoff, retains every other entry, sets `last_cleanup := now`, and reports
the removed-entry counts. -/
theorem cleanup_old_history_spec (history : History) (days_to_keep : Int) (now : PyDateTime)
    (h1 : (history.seen_jobs.map Prod.fst).Nodup)
    (h2 : (history.daily_counts.map Prod.fst).Nodup) :
    (cleanup_old_history history days_to_keep now).1.seen_jobs
      = history.seen_jobs.filter
          (fun p => !(dtLtb p.2 ⟨now.date - days_to_keep, now.tod⟩))
    ∧ (cleanup_old_history history days_to_keep now).1.daily_counts
      = history.daily_counts.filter
          (fun p => !(dtLtb ⟨p.1, 0⟩ ⟨now.date - days_to_keep, now.tod⟩))
    ∧ (cleanup_old_history history days_to_keep now).1.last_cleanup = now
    ∧ (cleanup_old_history history days_to_keep now).2.1
      = (history.seen_jobs.filter
          (fun p => dtLtb p.2 ⟨now.date - days_to_keep, now.tod⟩)).length
    ∧ (cleanup_old_history history days_to_keep now).2.2
      = (history.daily_counts.filter
          (fun p => dtLtb ⟨p.1, 0⟩ ⟨now.date - days_to_keep, now.tod⟩)).length := by
  refine ⟨?_, ?_, rfl, by simp [cleanup_old_history], by simp [cleanup_old_history]⟩
  · simp only [cleanup_old_history]
    exact foldl_dictErase_filter _ history.seen_jobs h1
  · simp only [cleanup_old_history]
    exact foldl_dictErase_filter _ history.daily_counts h2

/-- A concrete store for the sweeper: one fingerprint seen 40 days ago, one
seen 10 days ago, one daily count 50 days old, one 5 days old. -/
def histSweep : History :=
  { seen_jobs := [("fp40days", ⟨19960, 2⟩), ("fp10days", ⟨19990, 7⟩)],
    daily_counts := [(19950, 4), (19995, 6)], last_cleanup := tPast }

/-- Witness for C4: sweeping `histSweep` with `days_to_keep = 30` at
`nowA = ⟨20000, 5⟩` removes exactly the 40-day-old entry and the 50-day-old
count, keeps the young ones, stamps `last_cleanup`, and reports one removal
of each kind. -/
theorem cleanup_old_history_spec_witness :
    (cleanup_old_history histSweep 30 nowA).1.seen_jobs = [("fp10days", ⟨19990, 7⟩)]
    ∧ (cleanup_old_history histSweep 30 nowA).1.daily_counts = [(19995, 6)]
    ∧ (cleanup_old_history histSweep 30 nowA).1.last_cleanup = nowA
    ∧ (cleanup_old_history histSweep 30 nowA).2.1 = 1
    ∧ (cleanup_old_history histSweep 30 nowA).2.2 = 1 := by
  have T := cleanup_old_history_spec histSweep 30 nowA (by decide) (by decide)
  exact ⟨T.1.trans (by decide), T.2.1.trans (by decide), T.2.2.1,
    T.2.2.2.1.trans (by decide), T.2.2.2.2.trans (by decide)⟩

/-! ## C5 / C8: persistence round-trip and load-failure fallback -/

theorem digitChar_isDigit (k : Nat) (h : k < 10) : (Nat.digitChar k).isDigit = true := by
  interval_cases k <;> decide

theorem digitChar_val (k : Nat) (h : k < 10) : (Nat.digitChar k).toNat - 48 = k := by
  interval_cases k <;> decide

theorem natDigitsAux_all_digits : ∀ (fuel n : Nat),
    (natDigitsAux fuel n).all Char.isDigit = true := by
  intro fuel
  induction fuel with
  | zero => intro n; rfl
  | succ f ih =>
    intro n
    by_cases h : n < 10
    · simp [natDigitsAux, h, digitChar_isDigit n h]
    · simp [natDigitsAux, h, List.all_append, ih,
        digitChar_isDigit (n % 10) (Nat.mod_lt _ (by norm_num))]

theorem natDigitsAux_ne_nil (fuel n : Nat) (h : 0 < fuel) : natDigitsAux fuel n ≠ [] := by
  cases fuel with
  | zero => omega
  | succ f =>
    by_cases h10 : n < 10 <;> simp [natDigitsAux, h10]

theorem foldl_digitStep_shift : ∀ (cs : List Char) (a : Nat),
    cs.foldl digitStep a = a * 10 ^ cs.length + cs.foldl digitStep 0 := by
  intro cs
  induction cs with
  | nil => intro a; simp
  | cons c t ih =>
    intro a
    simp only [List.foldl_cons, List.length_cons]
    rw [ih (digitStep a c), ih (digitStep 0 c)]
    simp only [digitStep]
    rw [pow_succ]
    ring

theorem natDigitsAux_decode : ∀ (fuel n : Nat), n < fuel →
    (natDigitsAux fuel n).foldl digitStep 0 = n := by
  intro fuel
  induction fuel with
  | zero => intro n h; omega
  | succ f ih =>
    intro n h
    by_cases h10 : n < 10
    · simp only [natDigitsAux, if_pos h10, List.foldl_cons, List.foldl_nil, digitStep]
      rw [digitChar_val n h10]
      omega
    · have hdiv : n / 10 < f := by omega
      simp only [natDigitsAux, if_neg h10]
      rw [List.foldl_append, ih (n / 10) hdiv]
      simp only [List.foldl_cons, List.foldl_nil, digitStep]
      rw [digitChar_val (n % 10) (Nat.mod_lt _ (by norm_num))]
      omega

theorem parseNatDigits_natDigits (n : Nat) : parseNatDigits (natDigits n) = some n := by
  have h1 := natDigitsAux_ne_nil (n + 1) n (by omega)
  have h2 := natDigitsAux_all_digits (n + 1) n
  simp [parseNatDigits, natDigits, h1, h2, natDigitsAux_decode (n + 1) n (by omega)]

/-- Heads of all-`p` lists satisfy `p`. -/
theorem head_of_all {p : Char → Bool} : ∀ (l : List Char), l.all p = true →
    ∀ c, l.head? = some c → p c = true := by
  intro l hall c hc
  cases l with
  | nil => simp at hc
  | cons x t =>
    simp only [List.head?_cons, Option.some.injEq] at hc
    subst hc
    exact (List.all_eq_true.mp hall) _ (List.mem_cons_self _ _)

theorem parseIntDigits_intDigits (i : Int) : parseIntDigits (intDigits i) = some i := by
  by_cases h : i < 0
  · simp only [intDigits, if_pos h, parseIntDigits, List.head?_cons, List.tail_cons,
      Option.some.injEq, if_pos rfl]
    rw [parseNatDigits_natDigits]
    show some (-(i.natAbs : Int)) = some i
    congr 1
    omega
  · simp only [intDigits, if_neg h, parseIntDigits]
    have hne : (natDigits i.natAbs).head? ≠ some '-' := by
      intro hc
      have := head_of_all (natDigits i.natAbs) (natDigitsAux_all_digits _ _) '-' hc
      exact absurd this (by decide)
    rw [if_neg hne, parseNatDigits_natDigits]
    show some ((i.natAbs : Int)) = some i
    congr 1
    omega

theorem splitAtT_append (b : List Char) : ∀ a : List Char, 'T' ∉ a →
    splitAtT (a ++ 'T' :: b) = some (a, b) := by
  intro a
  induction a with
  | nil => intro h; simp [splitAtT]
  | cons c t ih =>
    intro h
    have hc : c ≠ 'T' := fun he => h (he ▸ List.mem_cons_self _ _)
    have ht : 'T' ∉ t := fun hm => h (List.mem_cons_of_mem _ hm)
    simp [splitAtT, hc, List.append_eq, ih ht]

theorem not_T_of_all_digits (l : List Char) (h : l.all Char.isDigit = true) : 'T' ∉ l := by
  intro hm
  have := (List.all_eq_true.mp h) 'T' hm
  exact absurd this (by decide)

theorem T_notin_intDigits (i : Int) : 'T' ∉ intDigits i := by
  intro hmem
  by_cases h : i < 0
  · simp only [intDigits, if_pos h] at hmem
    rcases List.mem_cons.mp hmem with he | hm
    · simp at he
    · exact not_T_of_all_digits _ (natDigitsAux_all_digits _ _) hm
  · simp only [intDigits, if_neg h] at hmem
    exact not_T_of_all_digits _ (natDigitsAux_all_digits _ _) hmem

theorem isoParse_isoFormat (t : PyDateTime) : isoParse (isoFormat t) = some t := by
  simp only [isoParse, isoFormat]
  rw [splitAtT_append (natDigits t.tod) (intDigits t.date) (T_notin_intDigits t.date)]
  simp [parseIntDigits_intDigits, parseNatDigits_natDigits]

theorem decodeSeen_roundtrip : ∀ l : List (String × PyDateTime),
    decodeSeen (l.map (fun p => (p.1, Json.str (isoFormat p.2)))) = some l := by
  intro l
  induction l with
  | nil => rfl
  | cons p t ih =>
    simp only [List.map_cons, decodeSeen, isoParse_isoFormat, ih]

theorem decodeCounts_roundtrip : ∀ l : List (Int × Int),
    decodeCounts (l.map (fun p => (String.mk (intDigits p.1), Json.num p.2))) = some l := by
  intro l
  induction l with
  | nil => rfl
  | cons p t ih =>
    simp only [List.map_cons, decodeCounts, ih]
    rw [parseIntDigits_intDigits]

/-- C5: saving any history store and loading it back returns a store equal
in all fields — `seen_jobs`, `daily_counts` and `last_cleanup` all survive
the JSON round trip with no field loss. -/
theorem save_load_roundtrip (history : History) (now : PyDateTime) :
    load_history (save_history history) now = some history := by
  simp only [load_history, save_history, historyToJson, jsonToHistory]
  rw [decodeSeen_roundtrip, decodeCounts_roundtrip, isoParse_isoFormat]

/-- C8: a missing, unreadable, or unparsable history file is not an error:
`load_history` falls back to the fresh empty store (empty `seen_jobs`,
empty `daily_counts`, `last_cleanup = now`), so the worst case is that all
records are treated as new. -/
theorem load_history_failure_fallback (now : PyDateTime) :
    load_history .absent now = some (fresh_history now)
    ∧ load_history .unreadable now = some (fresh_history now)
    ∧ load_history .corrupt now = some (fresh_history now)
    ∧ (fresh_history now).seen_jobs = []
    ∧ (fresh_history now).daily_counts = []
    ∧ (fresh_history now).last_cleanup = now :=
  ⟨rfl, rfl, rfl, rfl, rfl, rfl⟩

end JobAgent
